import Mathlib

/-!
Shallow embedding of the zsh-history statistics tool (src/main.rs).

Bytes are modelled as natural numbers (the values 0..255 that occur in a
Rust Vec<u8>); a raw or logical line is a List Nat.  HashMap<String, u32>
is modelled as an association list keyed by the UTF-8 byte sequence of the
string: Rust String equality and ordering coincide with equality and
lexicographic ordering of the underlying byte sequences, so this keying is
faithful.  Rust String::from_utf8 succeeding is modelled by the standard
UTF-8 validity predicate isValidUTF8 below.
-/

/-- Rust slice::split with predicate (x == b), as used on both spaces and
semicolons in main.rs.  An empty slice yields one empty subslice; the
separator byte is dropped; trailing and consecutive separators yield empty
subslices. -/
def splitOnByte (b : Nat) : List Nat → List (List Nat)
  | [] => [[]]
  | c :: rest =>
    if c = b then [] :: splitOnByte b rest
    else
      match splitOnByte b rest with
      | t :: ts => (c :: t) :: ts
      | [] => [[c]]

/-- A UTF-8 continuation byte (0x80..0xBF). -/
def isUTF8Tail (b : Nat) : Bool := 0x80 ≤ b && b ≤ 0xBF

/-- The byte sequence is well-formed UTF-8; models Rust String::from_utf8
returning Ok. -/
def isValidUTF8 : List Nat → Bool
  | [] => true
  | b :: rest =>
    if b ≤ 0x7F then isValidUTF8 rest
    else if 0xC2 ≤ b && b ≤ 0xDF then
      match rest with
      | b1 :: rest1 => isUTF8Tail b1 && isValidUTF8 rest1
      | [] => false
    else if b = 0xE0 then
      match rest with
      | b1 :: b2 :: rest2 =>
        (0xA0 ≤ b1 && b1 ≤ 0xBF) && (isUTF8Tail b2 && isValidUTF8 rest2)
      | _ => false
    else if (0xE1 ≤ b && b ≤ 0xEC) || (b = 0xEE || b = 0xEF) then
      match rest with
      | b1 :: b2 :: rest2 =>
        isUTF8Tail b1 && (isUTF8Tail b2 && isValidUTF8 rest2)
      | _ => false
    else if b = 0xED then
      match rest with
      | b1 :: b2 :: rest2 =>
        (0x80 ≤ b1 && b1 ≤ 0x9F) && (isUTF8Tail b2 && isValidUTF8 rest2)
      | _ => false
    else if b = 0xF0 then
      match rest with
      | b1 :: b2 :: b3 :: rest3 =>
        (0x90 ≤ b1 && b1 ≤ 0xBF) &&
          (isUTF8Tail b2 && (isUTF8Tail b3 && isValidUTF8 rest3))
      | _ => false
    else if 0xF1 ≤ b && b ≤ 0xF3 then
      match rest with
      | b1 :: b2 :: b3 :: rest3 =>
        isUTF8Tail b1 && (isUTF8Tail b2 && (isUTF8Tail b3 && isValidUTF8 rest3))
      | _ => false
    else if b = 0xF4 then
      match rest with
      | b1 :: b2 :: b3 :: rest3 =>
        (0x80 ≤ b1 && b1 ≤ 0x8F) &&
          (isUTF8Tail b2 && (isUTF8Tail b3 && isValidUTF8 rest3))
      | _ => false
    else false

/-- ASCII bytes of a (pure-ASCII) string literal, for readable test data. -/
def bytes (s : String) : List Nat := s.data.map Char.toNat

/-- A frequency table: HashMap<String, u32> as an association list keyed by
byte sequences (insertion order is irrelevant; reporting sorts). -/
abbrev Table := List (List Nat × Nat)

/-- map.entry(key).or_default() += 1: bump the count of key, inserting it
with count 1 if absent. -/
def incr (key : List Nat) : Table → Table
  | [] => [(key, 1)]
  | (k, v) :: rest => if k = key then (k, v + 1) :: rest else (k, v) :: incr key rest

/-- Total number of occurrences recorded in a table. -/
def tableSum (t : Table) : Nat := (t.map Prod.snd).sum

/-- Look up the count recorded for a key. -/
def tableGet (key : List Nat) : Table → Option Nat
  | [] => none
  | (k, v) :: rest => if k = key then some v else tableGet key rest

/-- The aggregation state of main.rs: struct State with its three
frequency tables. -/
structure State where
  man_pages : Table
  git_subcommands : Table
  commands : Table
  deriving DecidableEq

/-- State::default(): all three tables empty. -/
def State.initial : State := ⟨[], [], []⟩

/-- Rust u8::is_ascii_digit. -/
def isAsciiDigit (b : Nat) : Bool := 48 ≤ b && b ≤ 57

/-- main.rs lines 68-76: cmd = it.next(), then while the candidate token
contains an equals byte, advance to the next token.  Returns the resolved
command token (if any) together with the tokens that follow it (from which
arg1 and arg2 are then drawn). -/
def resolveCmd : List (List Nat) → Option (List Nat) × List (List Nat)
  | [] => (none, [])
  | t :: rest => if t.contains 61 then resolveCmd rest else (some t, rest)

/-- main.rs lines 67-78: split the entry on spaces, skip leading tokens
containing an equals byte, and take the two following tokens as arg1 and
arg2. -/
def parseEntry (entry : List Nat) :
    Option (List Nat) × Option (List Nat) × Option (List Nat) :=
  let r := resolveCmd (splitOnByte 32 entry)
  (r.1, r.2.head?, (r.2.drop 1).head?)

/-- main.rs lines 79-96, the first fallible closure: the man-page
classification.  Fires only when cmd is the literal man and arg1 is
present; an all-digit arg1 is a section number, shifting the page to arg2;
a UTF-8 decode failure skips the update. -/
def manUpdate (cmd arg1 arg2 : Option (List Nat)) (t : Table) : Table :=
  match cmd, arg1 with
  | some c, some a1 =>
    if c = bytes "man" then
      if a1.all isAsciiDigit then
        match arg2 with
        | some a2 => if isValidUTF8 a2 then incr a2 t else t
        | none => t
      else if isValidUTF8 a1 then incr a1 t else t
    else t
  | _, _ => t

/-- main.rs lines 97-121, the second fallible closure: the
version-control-subcommand classification, a first-match-wins case split
on (cmd, arg1). -/
def gitUpdate (cmd arg1 : Option (List Nat)) (t : Table) : Table :=
  match cmd, arg1 with
  | some c, some sub =>
    if c = bytes "g" ∨ c = bytes "git" then
      if isValidUTF8 sub then incr sub t else t
    else if c = bytes "gc" ∨ c = bytes "gca" then
      if isValidUTF8 (bytes "commit") then incr (bytes "commit") t else t
    else if c = bytes "ga" ∨ c = bytes "gau" then
      if isValidUTF8 (bytes "add") then incr (bytes "add") t else t
    else t
  | some c, none =>
    if c = bytes "gc" ∨ c = bytes "gca" then
      if isValidUTF8 (bytes "commit") then incr (bytes "commit") t else t
    else if c = bytes "ga" ∨ c = bytes "gau" then
      if isValidUTF8 (bytes "add") then incr (bytes "add") t else t
    else t
  | none, _ => t

/-- main.rs lines 122-132, the third fallible closure: the overall command
classification; increments the resolved command token when present and
UTF-8-decodable. -/
def cmdUpdate (cmd : Option (List Nat)) (t : Table) : Table :=
  match cmd with
  | some c => if isValidUTF8 c then incr c t else t
  | none => t

/-- One iteration of the loop body of process_command_history: tokenize
one logical command and apply the three independent classifications. -/
def processEntry (s : State) (entry : List Nat) : State :=
  let p := parseEntry entry
  { man_pages := manUpdate p.1 p.2.1 p.2.2 s.man_pages
    git_subcommands := gitUpdate p.1 p.2.1 s.git_subcommands
    commands := cmdUpdate p.1 s.commands }

/-- process_command_history (main.rs lines 65-134): fold the classifier
over the sequence of logical commands produced by the decoder. -/
def process_command_history (s : State) : List (List Nat) → State
  | [] => s
  | e :: rest => process_command_history (processEntry s e) rest

/-!
The history decoder (ZshHistory, main.rs lines 30-56).

The underlying line source br.split(b'\n') yields io::Result<Vec<u8>>
items; a raw line is therefore modelled as Option (List Nat), with none
standing for an Err (a line that failed to decode).  A panic of the
iterator (an unwrap of an Err) is modelled by the whole decoding returning
none.
-/

/-- The candidate extraction inside ZshHistory::next (main.rs lines
38-43): a line whose first byte is a colon yields nothing; otherwise the
line is split on semicolons, the first segment is discarded and the second
(if any) is the initial content of a logical command. -/
def candidate (x : List Nat) : Option (List Nat) :=
  if x.head? = some 58 then none
  else ((splitOnByte 59 x).drop 1).head?

/-- The continuation loop of ZshHistory::next (main.rs lines 45-50):
repeatedly peek the next raw line; stop (leaving it unconsumed) when it
starts with a colon; otherwise consume it and append its bytes.  Peeking a
line that failed to decode panics (next.as_ref().unwrap()), modelled as
none.  Returns the appended bytes and the unconsumed remainder. -/
def takeCont : List (Option (List Nat)) → Option (List Nat × List (Option (List Nat)))
  | [] => some ([], [])
  | none :: _ => none
  | some l :: rest =>
    if l.head? = some 58 then some ([], some l :: rest)
    else
      match takeCont rest with
      | none => none
      | some (acc, rem) => some (l ++ acc, rem)

/-- One call of ZshHistory::next (main.rs lines 33-55) on the remaining
raw lines.  Outcomes: none models a panic; some (none, _) models iterator
exhaustion (next returned None); some (some c, rem) models yielding the
logical command c with rem the lines not yet consumed.  A line that fails
to decode (transpose().ok().flatten()) or yields no candidate is skipped
and the loop continues. -/
def zshNext : List (Option (List Nat)) → Option (Option (List Nat) × List (Option (List Nat)))
  | [] => some (none, [])
  | item :: rest =>
    match item with
    | none => zshNext rest
    | some x =>
      match candidate x with
      | none => zshNext rest
      | some c =>
        match takeCont rest with
        | none => none
        | some (acc, rem) => some (some (c ++ acc), rem)

/-- The whole run of the ZshHistory iterator, as a state machine over the
raw lines.  The first argument is the record currently being accumulated
by the continuation loop (none while the outer loop is scanning for a
candidate).  While scanning, a line that fails to decode or yields no
candidate is skipped.  While accumulating: a line that fails to decode
panics (modelled none); a line starting with a colon closes the record,
and is then itself refused by candidate on the following next call (its
first byte is a colon), so scanning resumes after it; any other line is
appended.  The theorem zshRecords_none_eq below proves this function is
exactly the iteration of zshNext, the direct model of one next call. -/
def zshRecords : Option (List Nat) → List (Option (List Nat)) → Option (List (List Nat))
  | none, [] => some []
  | some acc, [] => some [acc]
  | none, item :: rest =>
    match item with
    | none => zshRecords none rest
    | some x =>
      match candidate x with
      | none => zshRecords none rest
      | some c => zshRecords (some c) rest
  | some acc, item :: rest =>
    match item with
    | none => none
    | some l =>
      if l.head? = some 58 then
        match zshRecords none rest with
        | none => none
        | some cs => some (acc :: cs)
      else zshRecords (some (acc ++ l)) rest

/-- Repeated calls of ZshHistory::next until exhaustion: the full sequence
of logical commands the decoder yields, or none if some call panics. -/
def zshDecodeAux (ls : List (Option (List Nat))) : Option (List (List Nat)) :=
  zshRecords none ls

/-- The decoder's output on an input whose raw lines all decode. -/
def zshDecode (ls : List (List Nat)) : Option (List (List Nat)) :=
  zshDecodeAux (ls.map some)

/-- main (main.rs lines 136-141) up to reporting: an absent or unopenable
history file makes ZshHistory::new return None and the state stays
State::default(); otherwise the decoded commands are processed (none
models the process dying in a panic of the history iterator). -/
def mainState (hist : Option (List (Option (List Nat)))) : Option State :=
  match hist with
  | none => some State.initial
  | some ls =>
    match zshDecodeAux ls with
    | none => none
    | some cs => some (process_command_history State.initial cs)

/-!
Reporting (main.rs lines 143-178): each table is turned into a list of
(count, key) pairs, sorted ascending with sort_unstable (lexicographic on
the pair: count first, then the key, Rust Strings comparing as their UTF-8
bytes), then printed in reverse, truncated with take.  The pairs of a
table are pairwise distinct (keys are unique in a HashMap), so any
correct ascending sort yields the same list and an insertion sort is a
faithful model of sort_unstable.
-/

/-- Byte-wise lexicographic less-or-equal on byte sequences; this is
exactly how Rust String ordering compares the underlying UTF-8 bytes. -/
def lexLe : List Nat → List Nat → Bool
  | [], _ => true
  | _ :: _, [] => false
  | a :: as, b :: bs => if a < b then true else if a = b then lexLe as bs else false

/-- The ascending order sort_unstable uses on (count, key) pairs:
lexicographic on the tuple, count first. -/
def pairLe (p q : Nat × List Nat) : Bool :=
  if p.1 < q.1 then true else if p.1 = q.1 then lexLe p.2 q.2 else false

/-- Insert into an ascending-sorted list of (count, key) pairs. -/
def insertPair (p : Nat × List Nat) : List (Nat × List Nat) → List (Nat × List Nat)
  | [] => [p]
  | q :: rest => if pairLe p q then p :: q :: rest else q :: insertPair p rest

/-- Sort (count, key) pairs ascending; models sort_unstable on the
Vec<(&u32, &String)> built from a table. -/
def sortPairs : List (Nat × List Nat) → List (Nat × List Nat)
  | [] => []
  | p :: rest => insertPair p (sortPairs rest)

/-- One printed report: map the table to (count, key) pairs, sort
ascending, iterate in reverse and take the first n. -/
def rankReport (t : Table) (n : Nat) : List (Nat × List Nat) :=
  ((sortPairs (t.map (fun kv => (kv.2, kv.1)))).reverse).take n

/-- main.rs lines 143-157: the man-page report prints the top 15. -/
def mostUsedManPages (s : State) : List (Nat × List Nat) :=
  rankReport s.man_pages 15

/-- main.rs lines 163-167: the subcommand report prints the top 5. -/
def mostUsedSubcommands (s : State) : List (Nat × List Nat) :=
  rankReport s.git_subcommands 5

/-- main.rs lines 172-175: the overall command report prints the top 15. -/
def mostUsedCommands (s : State) : List (Nat × List Nat) :=
  rankReport s.commands 15

/-! Helper lemmas. -/

/-- The accumulating phase of zshRecords agrees with takeCont, the direct
model of the continuation loop of ZshHistory::next. -/
theorem zshRecords_cont_eq (ls : List (Option (List Nat))) : ∀ acc,
    zshRecords (some acc) ls =
      match takeCont ls with
      | none => none
      | some (tail, rem) =>
        match zshRecords none rem with
        | none => none
        | some cs => some ((acc ++ tail) :: cs) := by
  induction ls with
  | nil => intro acc; simp [zshRecords, takeCont]
  | cons hd tl ih =>
    intro acc
    match hd with
    | none => simp [zshRecords, takeCont]
    | some l =>
      by_cases hc : l.head? = some 58
      · have hcand : candidate l = none := by simp [candidate, hc]
        simp only [zshRecords, takeCont, if_pos hc, hcand]
        cases zshRecords none tl <;> simp
      · simp only [zshRecords, takeCont, if_neg hc]
        rw [ih (acc ++ l)]
        cases htc : takeCont tl with
        | none => simp
        | some pr =>
          obtain ⟨tail, rem⟩ := pr
          cases zshRecords none rem <;> simp

/-- zshRecords (from the empty scanning state) is exactly the iteration of
zshNext, the direct model of one call of ZshHistory::next: it yields
nothing once next returns None, propagates a panic, and otherwise collects
the yielded logical command. -/
theorem zshRecords_none_eq (ls : List (Option (List Nat))) :
    zshRecords none ls =
      match zshNext ls with
      | none => none
      | some (none, _) => some []
      | some (some c, rem) =>
        match zshRecords none rem with
        | none => none
        | some cs => some (c :: cs) := by
  induction ls with
  | nil => simp [zshRecords, zshNext]
  | cons hd tl ih =>
    match hd with
    | none => simpa only [zshRecords, zshNext] using ih
    | some x =>
      cases hx : candidate x with
      | none =>
        simp only [zshRecords, zshNext, hx]
        exact ih
      | some c =>
        simp only [zshRecords, zshNext, hx]
        rw [zshRecords_cont_eq tl c]
        cases takeCont tl with
        | none => simp
        | some pr =>
          obtain ⟨tail, rem⟩ := pr
          cases zshRecords none rem <;> simp

/-- Bumping a key raises the total occurrence count of a table by exactly
one, whether or not the key was already present. -/
theorem incr_tableSum (key : List Nat) (t : Table) :
    tableSum (incr key t) = tableSum t + 1 := by
  induction t with
  | nil => simp [incr, tableSum]
  | cons kv rest ih =>
    obtain ⟨k, v⟩ := kv
    by_cases h : k = key <;> simp [incr, h, tableSum] <;>
      simp [tableSum] at ih <;> omega

/-- The command-table update adds one occurrence exactly when the resolved
command token is present and valid UTF-8. -/
theorem cmdUpdate_tableSum (cmd : Option (List Nat)) (t : Table) :
    tableSum (cmdUpdate cmd t) =
      tableSum t + (if cmd.elim false isValidUTF8 then 1 else 0) := by
  match cmd with
  | none => simp [cmdUpdate]
  | some c =>
    by_cases h : isValidUTF8 c <;> simp [cmdUpdate, h, incr_tableSum]

/-- Generalized command-count invariant: processing adds to the command
table one occurrence per entry whose resolved command token exists and is
valid UTF-8. -/
theorem process_tableSum (es : List (List Nat)) : ∀ s : State,
    tableSum (process_command_history s es).commands =
      tableSum s.commands +
        es.countP (fun e => ((parseEntry e).1.elim false isValidUTF8 : Bool)) := by
  induction es with
  | nil => intro s; simp [process_command_history]
  | cons e rest ih =>
    intro s
    simp only [process_command_history, List.countP_cons]
    rw [ih]
    simp only [processEntry]
    rw [cmdUpdate_tableSum]
    by_cases h : ((parseEntry e).1.elim false isValidUTF8 : Bool) <;> simp [h] <;> omega

/-- Byte-wise lexicographic comparison is total. -/
theorem lexLe_total : ∀ a b : List Nat, lexLe a b = true ∨ lexLe b a = true := by
  intro a
  induction a with
  | nil => intro b; left; simp [lexLe]
  | cons x xs ih =>
    intro b
    match b with
    | [] => right; simp [lexLe]
    | y :: ys =>
      by_cases hxy : x < y
      · left; simp [lexLe, hxy]
      · by_cases heq : x = y
        · subst heq
          cases ih ys with
          | inl h => left; simp [lexLe, h]
          | inr h => right; simp [lexLe, h]
        · right
          have hyx : y < x := by omega
          simp [lexLe, hyx]

/-- Byte-wise lexicographic comparison is transitive. -/
theorem lexLe_trans : ∀ a b c : List Nat,
    lexLe a b = true → lexLe b c = true → lexLe a c = true := by
  intro a
  induction a with
  | nil => intro b c _ _; simp [lexLe]
  | cons x xs ih =>
    intro b c hab hbc
    match b, c with
    | [], _ => simp [lexLe] at hab
    | y :: ys, [] => simp [lexLe] at hbc
    | y :: ys, z :: zs =>
      by_cases h1 : x < y
      · by_cases h2 : y < z
        · have hxz : x < z := by omega
          simp [lexLe, hxz]
        · by_cases h3 : y = z
          · subst h3; simp [lexLe, h1]
          · simp [lexLe, h2, h3] at hbc
      · by_cases h1e : x = y
        · subst h1e
          simp only [lexLe, if_neg h1, if_pos rfl] at hab
          by_cases h2 : x < z
          · simp [lexLe, h2]
          · by_cases h3 : x = z
            · subst h3
              simp only [lexLe, if_neg h2, if_pos rfl] at hbc ⊢
              exact ih ys zs hab hbc
            · simp [lexLe, h2, h3] at hbc
        · simp [lexLe, h1, h1e] at hab

/-- The ascending pair order used by sort_unstable is total. -/
theorem pairLe_total : ∀ p q : Nat × List Nat, pairLe p q = true ∨ pairLe q p = true := by
  intro ⟨c1, k1⟩ ⟨c2, k2⟩
  by_cases h : c1 < c2
  · left; simp [pairLe, h]
  · by_cases he : c1 = c2
    · subst he
      cases lexLe_total k1 k2 with
      | inl hl => left; simp [pairLe, hl]
      | inr hl => right; simp [pairLe, hl]
    · right
      have h2 : c2 < c1 := by omega
      simp [pairLe, h2]

/-- The ascending pair order used by sort_unstable is transitive. -/
theorem pairLe_trans : ∀ p q r : Nat × List Nat,
    pairLe p q = true → pairLe q r = true → pairLe p r = true := by
  intro ⟨c1, k1⟩ ⟨c2, k2⟩ ⟨c3, k3⟩ hpq hqr
  by_cases h1 : c1 < c2
  · by_cases h2 : c2 < c3
    · have : c1 < c3 := by omega
      simp [pairLe, this]
    · by_cases h3 : c2 = c3
      · subst h3
        simp [pairLe, h1]
      · simp [pairLe, h2, h3] at hqr
  · by_cases h1e : c1 = c2
    · subst h1e
      simp only [pairLe, if_neg h1, if_pos rfl] at hpq
      by_cases h2 : c1 < c3
      · simp [pairLe, h2]
      · by_cases h3 : c1 = c3
        · subst h3
          simp only [pairLe, if_neg h2, if_pos rfl] at hqr ⊢
          exact lexLe_trans k1 k2 k3 hpq hqr
        · simp [pairLe, h2, h3] at hqr
    · simp [pairLe, h1, h1e] at hpq

/-- Membership after insertion. -/
theorem mem_insertPair (p r : Nat × List Nat) : ∀ l : List (Nat × List Nat),
    r ∈ insertPair p l → r = p ∨ r ∈ l := by
  intro l
  induction l with
  | nil => intro h; simp [insertPair] at h; left; exact h
  | cons q rest ih =>
    intro h
    by_cases hpq : pairLe p q = true
    · simp [insertPair, hpq] at h
      rcases h with h | h | h
      · left; exact h
      · right; simp [h]
      · right; simp [h]
    · simp [insertPair, hpq] at h
      rcases h with h | h
      · right; simp [h]
      · rcases ih h with h2 | h2
        · left; exact h2
        · right; simp [h2]

/-- Inserting into an ascending-sorted pair list keeps it sorted. -/
theorem insertPair_sorted (p : Nat × List Nat) :
    ∀ l : List (Nat × List Nat),
    l.Pairwise (fun a b => pairLe a b = true) →
    (insertPair p l).Pairwise (fun a b => pairLe a b = true) := by
  intro l
  induction l with
  | nil => intro _; simp [insertPair]
  | cons q rest ih =>
    intro h
    rcases List.pairwise_cons.mp h with ⟨hq, hrest⟩
    by_cases hpq : pairLe p q = true
    · simp only [insertPair, if_pos hpq]
      refine List.pairwise_cons.mpr ⟨?_, h⟩
      intro r hr
      rcases List.mem_cons.mp hr with rfl | hr2
      · exact hpq
      · exact pairLe_trans p q r hpq (hq r hr2)
    · simp only [insertPair, if_neg hpq]
      refine List.pairwise_cons.mpr ⟨?_, ih hrest⟩
      intro r hr
      rcases mem_insertPair p r rest hr with rfl | hr2
      · cases pairLe_total q r with
        | inl hl => exact hl
        | inr hl => exact absurd hl hpq
      · exact hq r hr2

/-- sortPairs returns an ascending-sorted list. -/
theorem sortPairs_sorted : ∀ l : List (Nat × List Nat),
    (sortPairs l).Pairwise (fun a b => pairLe a b = true) := by
  intro l
  induction l with
  | nil => simp [sortPairs]
  | cons p rest ih => exact insertPair_sorted p (sortPairs rest) ih

/-- Every printed report is descending: each listed pair is
greater-or-equal (count first, then byte-wise lexicographic key order)
than every pair listed after it. -/
theorem rankReport_sorted (t : Table) (n : Nat) :
    (rankReport t n).Pairwise (fun p q => pairLe q p = true) := by
  unfold rankReport
  refine List.Pairwise.sublist (List.take_sublist n _) ?_
  exact List.pairwise_reverse.mpr (sortPairs_sorted _)

/-! Claim theorems. -/

/-- C1: evaluation of the decoder against the claimed metadata-line rule.
The claim says a metadata line (first byte a colon) containing a semicolon
emits one logical command holding everything after the first semicolon,
and that every other line emits nothing.  The code does the opposite: on
the single metadata line :1700000000:0;echo hi it emits nothing, while on
the non-metadata line x;cmd it emits one command, and on x;cmd;more the
emitted content is only the text between the first and second semicolon. -/
theorem C1_metadata_line_emits_nothing :
    zshDecode [bytes ":1700000000:0;echo hi"] = some [] ∧
    zshDecode [bytes "x;cmd"] = some [bytes "cmd"] ∧
    zshDecode [bytes "x;cmd;more"] = some [bytes "cmd"] := by
  decide

/-- C2: evaluation of the decoder at the claim's own example input.  The
claim says the line :1700000000:0;echo "a followed by the line b" yields
exactly one logical command echo "ab".  The code emits no command at all
there (the metadata line is discarded and b" has no semicolon); the
verbatim zero-separator concatenation does hold, but only for records the
code actually starts, i.e. non-metadata lines containing a semicolon. -/
theorem C2_example_input_emits_nothing :
    zshDecode [bytes ":1700000000:0;echo \"a", bytes "b\""] = some [] ∧
    zshDecode [bytes "x;echo \"a", bytes "b\""] = some [bytes "echo \"ab\""] := by
  decide

/-- C3: the sum of all counts in the commands table after processing any
finite sequence of logical commands equals the number of those commands
whose resolved command token exists and is valid UTF-8. -/
theorem C3_command_table_sum (es : List (List Nat)) :
    tableSum (process_command_history State.initial es).commands =
      es.countP (fun e => ((parseEntry e).1.elim false isValidUTF8 : Bool)) := by
  have h := process_tableSum es State.initial
  simpa [State.initial, tableSum] using h

/-- C4 counterexample: a raw line that fails to decode is not always
skipped.  If it is peeked while the decoder is consuming continuation
lines of an emitted record, the iterator unwraps the Err and panics: the
decode aborts (none) and the run produces no report. -/
theorem C4_counterexample_error_line_panics :
    zshDecodeAux [some (bytes "x;y"), none] = none ∧
    mainState (some [some (bytes "x;y"), none]) = none := by
  decide

/-- C4 amended: an absent or unopenable history file leaves all three
tables empty and the run still completes normally; a raw line that fails
to decode is skipped without aborting when the decoder is scanning for the
next record start; but a line that fails to decode while continuation
lines are being consumed panics, aborting the run. -/
theorem C4_no_fatal_error_amended :
    (mainState none = some State.initial ∧
      State.initial.man_pages = [] ∧
      State.initial.git_subcommands = [] ∧
      State.initial.commands = []) ∧
    (∀ rest : List (Option (List Nat)),
      zshRecords none (none :: rest) = zshRecords none rest) ∧
    zshDecodeAux [some (bytes "x;y"), none] = none := by
  refine ⟨⟨rfl, rfl, rfl, rfl⟩, ?_, by decide⟩
  intro rest
  simp [zshRecords]

/-- C5: the resolved command token is the first space-delimited token with
no equals byte.  Stated both as a find-first characterization of the
skipping loop and as its decomposition form (every leading token with an
equals byte is skipped and the following tokens become the new arg1/arg2
pool); plus the claim's concrete example, where FOO=bar git status
resolves to git with arg1 status and bumps the subcommand table entry for
status to 1. -/
theorem C5_env_prefix_skipping :
    (∀ ts : List (List Nat),
      (resolveCmd ts).1 = ts.find? (fun u => !(u.contains 61))) ∧
    (∀ (pre : List (List Nat)) (t : List Nat) (post : List (List Nat)),
      (∀ u ∈ pre, u.contains 61 = true) → t.contains 61 = false →
      resolveCmd (pre ++ t :: post) = (some t, post)) ∧
    parseEntry (bytes "FOO=bar git status") =
      (some (bytes "git"), some (bytes "status"), none) ∧
    (process_command_history State.initial [bytes "FOO=bar git status"]).git_subcommands
      = [(bytes "status", 1)] := by
  refine ⟨?_, ?_, by decide, by decide⟩
  · intro ts
    induction ts with
    | nil => simp [resolveCmd]
    | cons t rest ih =>
      by_cases h : (61 : Nat) ∈ t <;> simp [resolveCmd, List.find?, h, ih]
  · intro pre
    induction pre with
    | nil =>
      intro t post _ ht
      simp only [List.nil_append, resolveCmd]
      rw [if_neg (by simpa using ht)]
    | cons u us ih =>
      intro t post hpre ht
      have hu : u.contains 61 = true := hpre u (by simp)
      simp only [List.cons_append, resolveCmd, if_pos hu]
      exact ih t post (fun v hv => hpre v (by simp [hv])) ht

/-- C5 witness: the decomposition clause applied at the claim's example
token list. -/
theorem C5_env_prefix_skipping_witness :
    resolveCmd ([bytes "FOO=bar"] ++ bytes "git" :: [bytes "status"]) =
      (some (bytes "git"), [bytes "status"]) :=
  C5_env_prefix_skipping.2.1 [bytes "FOO=bar"] (bytes "git") [bytes "status"]
    (by decide) (by decide)

/-- C6: the man-page classification.  When the resolved command is man and
arg1 is present: a non-all-digit arg1 is the page counted; an all-digit
arg1 shifts the page to arg2; and an all-digit arg1 with no arg2 records
nothing.  Concretely man 3 printf counts printf (not 3) and man 3 counts
nothing. -/
theorem C6_man_page_rule :
    (∀ (s : State) (e : List Nat) (a1 : List Nat),
      (parseEntry e).1 = some (bytes "man") →
      (parseEntry e).2.1 = some a1 →
      ((a1.all isAsciiDigit = false → isValidUTF8 a1 = true →
          (processEntry s e).man_pages = incr a1 s.man_pages) ∧
       (∀ a2 : List Nat, a1.all isAsciiDigit = true → (parseEntry e).2.2 = some a2 →
          isValidUTF8 a2 = true →
          (processEntry s e).man_pages = incr a2 s.man_pages) ∧
       (a1.all isAsciiDigit = true → (parseEntry e).2.2 = none →
          (processEntry s e).man_pages = s.man_pages))) ∧
    (process_command_history State.initial [bytes "man 3 printf"]).man_pages
      = [(bytes "printf", 1)] ∧
    (process_command_history State.initial [bytes "man 3"]).man_pages = [] := by
  refine ⟨?_, by decide, by decide⟩
  intro s e a1 hc ha1
  refine ⟨?_, ?_, ?_⟩
  · intro hd hv
    simp [processEntry, manUpdate, hc, ha1, hd, hv]
  · intro a2 hd ha2 hv
    simp [processEntry, manUpdate, hc, ha1, hd, ha2, hv]
  · intro hd hn
    simp [processEntry, manUpdate, hc, ha1, hd, hn]

/-- C6 witness: the section-number clause applied at man 3 printf, and the
no-arg2 clause applied at man 3. -/
theorem C6_man_page_rule_witness :
    (processEntry State.initial (bytes "man 3 printf")).man_pages
      = incr (bytes "printf") State.initial.man_pages :=
  (C6_man_page_rule.1 State.initial (bytes "man 3 printf") (bytes "3")
      (by decide) (by decide)).2.1 (bytes "printf") (by decide) (by decide) (by decide)

/-- First match arm: resolved command g or git with arg1 present and
UTF-8-decodable bumps arg1's subcommand entry. -/
theorem gitUpdate_g_git (c sub : List Nat) (t : Table)
    (hc : c = bytes "g" ∨ c = bytes "git") (hv : isValidUTF8 sub = true) :
    gitUpdate (some c) (some sub) t = incr sub t := by
  simp only [gitUpdate]
  rw [if_pos hc, if_pos hv]

/-- Second match arm: resolved command gc or gca bumps the commit entry,
whatever the arguments are. -/
theorem gitUpdate_gc_gca (c : List Nat) (hc : c = bytes "gc" ∨ c = bytes "gca") :
    ∀ (a : Option (List Nat)) (t : Table),
      gitUpdate (some c) a t = incr (bytes "commit") t := by
  intro a t
  have hng : ¬(c = bytes "g" ∨ c = bytes "git") := by
    rcases hc with rfl | rfl <;> decide
  cases a with
  | some sub =>
    simp only [gitUpdate]
    rw [if_neg hng, if_pos hc, if_pos (by decide)]
  | none =>
    simp only [gitUpdate]
    rw [if_pos hc, if_pos (by decide)]

/-- Third match arm: resolved command ga or gau bumps the add entry,
whatever the arguments are. -/
theorem gitUpdate_ga_gau (c : List Nat) (hc : c = bytes "ga" ∨ c = bytes "gau") :
    ∀ (a : Option (List Nat)) (t : Table),
      gitUpdate (some c) a t = incr (bytes "add") t := by
  intro a t
  have hng : ¬(c = bytes "g" ∨ c = bytes "git") := by
    rcases hc with rfl | rfl <;> decide
  have hngc : ¬(c = bytes "gc" ∨ c = bytes "gca") := by
    rcases hc with rfl | rfl <;> decide
  cases a with
  | some sub =>
    simp only [gitUpdate]
    rw [if_neg hng, if_neg hngc, if_pos hc, if_pos (by decide)]
  | none =>
    simp only [gitUpdate]
    rw [if_neg hngc, if_pos hc, if_pos (by decide)]

/-- Fallthrough arm: any other resolved command leaves the subcommand
table untouched. -/
theorem gitUpdate_other (c : List Nat)
    (h1 : c ≠ bytes "g") (h2 : c ≠ bytes "git") (h3 : c ≠ bytes "gc")
    (h4 : c ≠ bytes "gca") (h5 : c ≠ bytes "ga") (h6 : c ≠ bytes "gau") :
    ∀ (a : Option (List Nat)) (t : Table), gitUpdate (some c) a t = t := by
  intro a t
  have hng : ¬(c = bytes "g" ∨ c = bytes "git") := by rintro (rfl | rfl) <;> simp_all
  have hngc : ¬(c = bytes "gc" ∨ c = bytes "gca") := by rintro (rfl | rfl) <;> simp_all
  have hnga : ¬(c = bytes "ga" ∨ c = bytes "gau") := by rintro (rfl | rfl) <;> simp_all
  cases a with
  | some sub =>
    simp only [gitUpdate]
    rw [if_neg hng, if_neg hngc, if_neg hnga]
  | none =>
    simp only [gitUpdate]
    rw [if_neg hngc, if_neg hnga]

/-- The subcommand classification records at most one occurrence per
logical command. -/
theorem gitUpdate_tableSum_le (cmd arg1 : Option (List Nat)) (t : Table) :
    tableSum (gitUpdate cmd arg1 t) ≤ tableSum t + 1 := by
  cases cmd with
  | none => simp [gitUpdate]
  | some c =>
    cases arg1 with
    | some sub =>
      simp only [gitUpdate]
      split_ifs <;> simp [incr_tableSum]
    | none =>
      simp only [gitUpdate]
      split_ifs <;> simp [incr_tableSum]

/-- C7: the version-control subcommand classification is a first-match
case split: g/git with arg1 present bumps arg1; gc/gca bumps commit
regardless of arguments; ga/gau bumps add regardless of arguments; every
other resolved command leaves the table unchanged; at most one occurrence
is recorded per logical command; and gca -m "msg" bumps commit exactly
once. -/
theorem C7_git_subcommand_cases :
    (∀ (s : State) (e : List Nat) (sub : List Nat),
      ((parseEntry e).1 = some (bytes "g") ∨ (parseEntry e).1 = some (bytes "git")) →
      (parseEntry e).2.1 = some sub → isValidUTF8 sub = true →
      (processEntry s e).git_subcommands = incr sub s.git_subcommands) ∧
    (∀ (s : State) (e : List Nat),
      ((parseEntry e).1 = some (bytes "gc") ∨ (parseEntry e).1 = some (bytes "gca")) →
      (processEntry s e).git_subcommands = incr (bytes "commit") s.git_subcommands) ∧
    (∀ (s : State) (e : List Nat),
      ((parseEntry e).1 = some (bytes "ga") ∨ (parseEntry e).1 = some (bytes "gau")) →
      (processEntry s e).git_subcommands = incr (bytes "add") s.git_subcommands) ∧
    (∀ (s : State) (e : List Nat) (c : List Nat),
      (parseEntry e).1 = some c →
      c ≠ bytes "g" → c ≠ bytes "git" → c ≠ bytes "gc" → c ≠ bytes "gca" →
      c ≠ bytes "ga" → c ≠ bytes "gau" →
      (processEntry s e).git_subcommands = s.git_subcommands) ∧
    (∀ (s : State) (e : List Nat),
      tableSum (processEntry s e).git_subcommands ≤ tableSum s.git_subcommands + 1) ∧
    (process_command_history State.initial [bytes "gca -m \"msg\""]).git_subcommands
      = [(bytes "commit", 1)] := by
  refine ⟨?_, ?_, ?_, ?_, ?_, by decide⟩
  · intro s e sub hc ha hv
    rcases hc with hc | hc
    · simp only [processEntry, hc, ha]
      exact gitUpdate_g_git _ sub _ (Or.inl rfl) hv
    · simp only [processEntry, hc, ha]
      exact gitUpdate_g_git _ sub _ (Or.inr rfl) hv
  · intro s e hc
    rcases hc with hc | hc
    · simp only [processEntry, hc]
      exact gitUpdate_gc_gca _ (Or.inl rfl) _ _
    · simp only [processEntry, hc]
      exact gitUpdate_gc_gca _ (Or.inr rfl) _ _
  · intro s e hc
    rcases hc with hc | hc
    · simp only [processEntry, hc]
      exact gitUpdate_ga_gau _ (Or.inl rfl) _ _
    · simp only [processEntry, hc]
      exact gitUpdate_ga_gau _ (Or.inr rfl) _ _
  · intro s e c hc h1 h2 h3 h4 h5 h6
    simp [processEntry, hc, gitUpdate_other c h1 h2 h3 h4 h5 h6]
  · intro s e
    simp only [processEntry]
    exact gitUpdate_tableSum_le _ _ _

/-- C7 witness: the gc/gca clause applied at the claim's example. -/
theorem C7_git_subcommand_cases_witness :
    (processEntry State.initial (bytes "gca -m \"msg\"")).git_subcommands =
      incr (bytes "commit") State.initial.git_subcommands :=
  C7_git_subcommand_cases.2.1 State.initial (bytes "gca -m \"msg\"") (Or.inr (by decide))

/-- C8: each of the three table updates of one loop iteration depends only
on its own table (given the same logical command, two states agreeing on
one table agree on it after the iteration, whatever the other tables
hold); processing always continues with the next logical command; and on
the concrete command git followed by the non-UTF-8 byte 0xFF the
subcommand update fails while the command table still records git. -/
theorem C8_independent_classifications :
    (∀ (s1 s2 : State) (e : List Nat), s1.man_pages = s2.man_pages →
      (processEntry s1 e).man_pages = (processEntry s2 e).man_pages) ∧
    (∀ (s1 s2 : State) (e : List Nat), s1.git_subcommands = s2.git_subcommands →
      (processEntry s1 e).git_subcommands = (processEntry s2 e).git_subcommands) ∧
    (∀ (s1 s2 : State) (e : List Nat), s1.commands = s2.commands →
      (processEntry s1 e).commands = (processEntry s2 e).commands) ∧
    (∀ (s : State) (e : List Nat) (rest : List (List Nat)),
      process_command_history s (e :: rest) =
        process_command_history (processEntry s e) rest) ∧
    ((processEntry State.initial (bytes "git " ++ [255])).git_subcommands = [] ∧
      (processEntry State.initial (bytes "git " ++ [255])).commands = [(bytes "git", 1)] ∧
      (processEntry State.initial (bytes "git " ++ [255])).man_pages = []) := by
  refine ⟨?_, ?_, ?_, fun s e rest => rfl, by decide⟩
  · intro s1 s2 e h
    simp [processEntry, h]
  · intro s1 s2 e h
    simp [processEntry, h]
  · intro s1 s2 e h
    simp [processEntry, h]

/-- C8 witness: the man-page component clause applied to two concrete
states that differ on the other two tables. -/
theorem C8_independent_classifications_witness :
    (processEntry State.initial (bytes "man 3 printf")).man_pages =
      (processEntry ⟨[], [(bytes "commit", 2)], [(bytes "ls", 5)]⟩
        (bytes "man 3 printf")).man_pages :=
  C8_independent_classifications.1 State.initial
    ⟨[], [(bytes "commit", 2)], [(bytes "ls", 5)]⟩ (bytes "man 3 printf") rfl

/-- Truncation: a report never lists more than n pairs. -/
theorem rankReport_length_le (t : Table) (n : Nat) : (rankReport t n).length ≤ n := by
  simp [rankReport, List.length_take]

/-- C9: every report lists (count, key) pairs so that each pair is
greater-or-equal, by count and then by byte-wise lexicographic key order,
than every pair after it (the order obtained by sorting ascending and
reversing); the three printed reports are truncated to the top 15, 5 and
15 entries; and the table with keys a and b both of count 3 ranks b above
a. -/
theorem C9_report_ranking :
    (∀ (t : Table) (n : Nat),
      (rankReport t n).Pairwise (fun p q => pairLe q p = true)) ∧
    (∀ s : State,
      (mostUsedManPages s).Pairwise (fun p q => pairLe q p = true) ∧
      (mostUsedSubcommands s).Pairwise (fun p q => pairLe q p = true) ∧
      (mostUsedCommands s).Pairwise (fun p q => pairLe q p = true)) ∧
    (∀ s : State,
      (mostUsedManPages s).length ≤ 15 ∧
      (mostUsedSubcommands s).length ≤ 5 ∧
      (mostUsedCommands s).length ≤ 15) ∧
    rankReport [(bytes "a", 3), (bytes "b", 3)] 15 = [(3, bytes "b"), (3, bytes "a")] := by
  refine ⟨rankReport_sorted, ?_, ?_, by decide⟩
  · intro s
    exact ⟨rankReport_sorted _ _, rankReport_sorted _ _, rankReport_sorted _ _⟩
  · intro s
    exact ⟨rankReport_length_le _ _, rankReport_length_le _ _, rankReport_length_le _ _⟩

/-- C10: a logical command that is empty or begins with a space has the
empty byte-slice as its first token; it contains no equals byte, so it
becomes the resolved command token and the commands table entry for the
empty key is bumped, while the man-page and subcommand tables (whose rules
cannot match the empty command token) are untouched. -/
theorem C10_empty_first_token :
    ∀ (s : State) (e : List Nat), e = [] ∨ e.head? = some 32 →
      (splitOnByte 32 e).head? = some [] ∧
      (parseEntry e).1 = some [] ∧
      (processEntry s e).commands = incr [] s.commands ∧
      (processEntry s e).man_pages = s.man_pages ∧
      (processEntry s e).git_subcommands = s.git_subcommands := by
  intro s e h
  obtain ⟨r, hr⟩ : ∃ r, splitOnByte 32 e = [] :: r := by
    rcases h with rfl | hh
    · exact ⟨[], rfl⟩
    · cases e with
      | nil => simp at hh
      | cons c tail =>
        simp at hh
        subst hh
        exact ⟨splitOnByte 32 tail, by simp [splitOnByte]⟩
  have hres : resolveCmd ([] :: r) = (some [], r) := by
    simp [resolveCmd]
  have h1 : (parseEntry e).1 = some [] := by
    simp [parseEntry, hr, hres]
  have hman : ∀ (x y : Option (List Nat)) (t : Table), manUpdate (some []) x y t = t := by
    intro x y t
    cases x with
    | none => rfl
    | some a1 =>
      simp only [manUpdate]
      rw [if_neg (by decide)]
  have hgit : ∀ (x : Option (List Nat)) (t : Table), gitUpdate (some []) x t = t := by
    intro x t
    cases x with
    | none =>
      simp only [gitUpdate]
      rw [if_neg (by decide), if_neg (by decide)]
    | some sub =>
      simp only [gitUpdate]
      rw [if_neg (by decide), if_neg (by decide), if_neg (by decide)]
  refine ⟨by simp [hr], h1, ?_, ?_, ?_⟩
  · simp only [processEntry, h1, cmdUpdate]
    rw [if_pos (by decide)]
  · simp only [processEntry, h1, hman]
  · simp only [processEntry, h1, hgit]

/-- C10 witness: a command starting with a space bumps the empty-key
entry of the commands table. -/
theorem C10_empty_first_token_witness :
    (processEntry State.initial (bytes " git status")).commands =
      incr [] State.initial.commands :=
  (C10_empty_first_token State.initial (bytes " git status") (Or.inr (by decide))).2.2.1
